import Mathlib

/-!
Verification of the TDEM b-formulation forward/sensitivity operator
(`simpegEM/TDEM/TDEM_b.py`, class `ProblemTDEM_b`).

Discrete operators (curl, mass matrices, model-transform derivatives) are
sparse linear maps consumed from external collaborators; we embed them as
matrices over `ℚ`.  Field histories hold per-time-step blocks of vectors
("e" on edges, "b" on faces), one column per source/receiver; we embed a
history as a pair of functions from the time index to a matrix block.
-/

namespace SimpegEM

/-- Mass matrices for the current model: edge conductivity mass matrix
`MeSigma`, its inverse `MeSigmaI`, and the face inverse-permeability mass
matrix `MfMui`.  Produced by the external Mass-Matrix Builder. -/
structure MassMatrices (nE nF : ℕ) where
  MeSigma : Matrix (Fin nE) (Fin nE) ℚ
  MeSigmaI : Matrix (Fin nE) (Fin nE) ℚ
  MfMui : Matrix (Fin nF) (Fin nF) ℚ

/-- Modelled from the spec: the external Field History container
(`FieldsTDEM`), storing per-time-step "e" (edge) and "b" (face) blocks,
accessed by time index. -/
structure FieldsTDEM (nE nF k : ℕ) where
  e : ℕ → Matrix (Fin nE) (Fin k) ℚ
  b : ℕ → Matrix (Fin nF) (Fin k) ℚ

/-- Modelled from the spec: the "b" accessor of the container.  The spec fixes the
boundary convention that "b" at a negative index (before the simulation
starts) is implicitly zero unless explicitly seeded. -/
def FieldsTDEM.get_b {nE nF k : ℕ} (F : FieldsTDEM nE nF k) (i : ℤ) :
    Matrix (Fin nF) (Fin k) ℚ :=
  if i < 0 then 0 else F.b i.toNat

/-- Modelled from the spec: the "e" accessor of the container, with the same
boundary convention as `FieldsTDEM.get_b`. -/
def FieldsTDEM.get_e {nE nF k : ℕ} (F : FieldsTDEM nE nF k) (i : ℤ) :
    Matrix (Fin nE) (Fin k) ℚ :=
  if i < 0 then 0 else F.e i.toNat

/-- The problem object: the mesh-provided operators, the model-transform
derivative, the (external) mass-matrix builder, and the time mesh.
`edgeCurl` maps edges to faces; `getEdgeMassDeriv` is the derivative of the
edge mass matrix in the edge-property direction; `transformDeriv m` is the
chain-rule factor of the model parameterization; `getDt` is the step-size
lookup of the time mesh and `nT` its number of steps (`times.size`). -/
structure Problem (nE nF nP nQ : ℕ) where
  edgeCurl : Matrix (Fin nF) (Fin nE) ℚ
  getEdgeMassDeriv : Matrix (Fin nE) (Fin nQ) ℚ
  transformDeriv : (Fin nP → ℚ) → Matrix (Fin nQ) (Fin nP) ℚ
  makeMassMatrices : (Fin nP → ℚ) → MassMatrices nE nF
  getDt : ℕ → ℚ
  nT : ℕ

variable {nE nF nP nQ k : ℕ}

/-- Embedding of `ProblemTDEM_b.getA`:
`MfMui*edgeCurl*MeSigmaI*edgeCurl.T*MfMui + (1/dt)*MfMui`, with the
left-associated products of the Python source, over the mass matrices `M`
built for the current model. -/
def getA (P : Problem nE nF nP nQ) (M : MassMatrices nE nF) (tInd : ℕ) :
    Matrix (Fin nF) (Fin nF) ℚ :=
  M.MfMui * P.edgeCurl * M.MeSigmaI * P.edgeCurl.transpose * M.MfMui +
    (1 / P.getDt tInd) • M.MfMui

/-- Embedding of `ProblemTDEM_b.getRHS`: `(1/dt)*MfMui*F.get_b(tInd-1)`,
where the index `tInd - 1` is taken in `ℤ` exactly as Python passes it to
the container accessor. -/
def getRHS (P : Problem nE nF nP nQ) (M : MassMatrices nE nF) (tInd : ℕ)
    (F : FieldsTDEM nE nF k) : Matrix (Fin nF) (Fin k) ℚ :=
  (1 / P.getDt tInd) • (M.MfMui * F.get_b ((tInd : ℤ) - 1))

/-- Embedding of `ProblemTDEM_b.G`: with
`c = getEdgeMassDeriv * transformDeriv(m) * v`, the output history has,
at each step `i`, `e`-block columns `-u.e[i][:,j] * c` (elementwise) and a
zero `b`-block. -/
def G (P : Problem nE nF nP nQ) (m : Fin nP → ℚ) (v : Fin nP → ℚ)
    (u : FieldsTDEM nE nF k) : FieldsTDEM nE nF k :=
  let c : Fin nE → ℚ := (P.getEdgeMassDeriv * P.transformDeriv m).mulVec v
  { e := fun i => Matrix.of fun r j => -(u.e i r j) * c r
    b := fun _ => 0 }

/-- Embedding of `ProblemTDEM_b.AhVec`: the residual operator.  Mass
matrices are rebuilt for `m`; the step-0 "b" residual omits the `u.b[i-1]`
term, later steps include it. -/
def AhVec (P : Problem nE nF nP nQ) (m : Fin nP → ℚ) (u : FieldsTDEM nE nF k) :
    FieldsTDEM nE nF k :=
  let M := P.makeMassMatrices m
  { b := fun i =>
      if i = 0 then
        (1 / P.getDt 0) • u.b 0 + P.edgeCurl * u.e 0
      else
        (1 / P.getDt i) • u.b i + P.edgeCurl * u.e i - (1 / P.getDt i) • u.b (i - 1)
    e := fun i =>
      P.edgeCurl.transpose * M.MfMui * u.b i - M.MeSigma * u.e i }

/-- Embedding of the closure `AhRHS` inside `ProblemTDEM_b.solveAh`: the
right-hand side for the adjoint-system solve at step `tInd`, reading the
perturbation history `p` and (for `tInd > 0`) the partially built history
`u`. -/
def AhRHS (P : Problem nE nF nP nQ) (M : MassMatrices nE nF)
    (p : FieldsTDEM nE nF k) (tInd : ℕ) (u : FieldsTDEM nE nF k) :
    Matrix (Fin nF) (Fin k) ℚ :=
  let rhs := M.MfMui * P.edgeCurl * M.MeSigmaI * p.get_e (tInd : ℤ) +
    M.MfMui * p.get_b (tInd : ℤ)
  if tInd = 0 then rhs
  else rhs + (1 / P.getDt tInd) • (M.MfMui * u.get_b ((tInd : ℤ) - 1))

/-- Embedding of the closure `AhCalcFields` inside `ProblemTDEM_b.solveAh`:
from the solved "b" block, derive the "e" block. -/
def AhCalcFields (P : Problem nE nF nP nQ) (M : MassMatrices nE nF)
    (p : FieldsTDEM nE nF k) (sol : Matrix (Fin nF) (Fin k) ℚ) (tInd : ℕ) :
    Matrix (Fin nF) (Fin k) ℚ × Matrix (Fin nE) (Fin k) ℚ :=
  (sol, M.MeSigmaI * P.edgeCurl.transpose * M.MfMui * sol -
    M.MeSigmaI * p.get_e (tInd : ℤ))

/-- Modelled from the spec: the time-stepping driver `fields` of
`ProblemBaseTDEM` (not under `src/`).  For `tInd = 0 .. nT-1` it solves
`A(tInd) * b[tInd] = rhs(tInd, history-so-far)` with the external pluggable
sparse solver and then derives `e[tInd]` by the injected field-calculation
rule.  Since the solver is opaque, a completed run is characterized
relationally: `Y` is a run when at every step the "b" block solves the step
system exactly and the "e" block follows the rule. -/
def IsRun (nT : ℕ) (A : ℕ → Matrix (Fin nF) (Fin nF) ℚ)
    (rhs : ℕ → FieldsTDEM nE nF k → Matrix (Fin nF) (Fin k) ℚ)
    (calcF : ℕ → Matrix (Fin nF) (Fin k) ℚ → Matrix (Fin nE) (Fin k) ℚ)
    (Y : FieldsTDEM nE nF k) : Prop :=
  ∀ t, t < nT → A t * Y.b t = rhs t Y ∧ Y.e t = calcF t (Y.b t)

/-- Embedding of `ProblemTDEM_b.solveAh`: it runs the driver with the
system matrix `getA` unchanged, the right-hand side builder `AhRHS` and the
field rule `AhCalcFields`, after rebuilding mass matrices for `m`.  `Y` is
a possible result of `solveAh(m, p)` exactly when this holds. -/
def SolveAhRun (P : Problem nE nF nP nQ) (m : Fin nP → ℚ)
    (p : FieldsTDEM nE nF k) (Y : FieldsTDEM nE nF k) : Prop :=
  let M := P.makeMassMatrices m
  IsRun P.nT (getA P M) (AhRHS P M p)
    (fun t sol => (AhCalcFields P M p sol t).2) Y

/-- Modelled from the spec: the implicit mass-matrix cache of the problem object
(state on `ProblemBaseTDEM`, not under `src/`).  `massCache` is `none`
before `makeMassMatrices` has been run for the current model; `getA` and
`getRHS` read the cached matrices and fail when they are absent. -/
structure ProblemState (nE nF nP nQ : ℕ) where
  prb : Problem nE nF nP nQ
  massCache : Option (MassMatrices nE nF)

/-- Modelled from the spec: `getA` as invoked on the stateful problem
object; fails (returns `none`) when mass matrices are not built. -/
def ProblemState.getA? (S : ProblemState nE nF nP nQ) (tInd : ℕ) :
    Option (Matrix (Fin nF) (Fin nF) ℚ) :=
  S.massCache.map fun M => getA S.prb M tInd

/-- Modelled from the spec: `getRHS` as invoked on the stateful problem
object; fails (returns `none`) when mass matrices are not built. -/
def ProblemState.getRHS? (S : ProblemState nE nF nP nQ) (tInd : ℕ)
    (F : FieldsTDEM nE nF k) : Option (Matrix (Fin nF) (Fin k) ℚ) :=
  S.massCache.map fun M => getRHS S.prb M tInd F

/-! Helper lemmas about the container accessors at the indices the source
actually passes. -/

/-- At a natural index the "b" accessor is a plain lookup. -/
theorem FieldsTDEM.get_b_natCast (F : FieldsTDEM nE nF k) (n : ℕ) :
    F.get_b (n : ℤ) = F.b n := by
  simp [FieldsTDEM.get_b]

/-- At a natural index the "e" accessor is a plain lookup. -/
theorem FieldsTDEM.get_e_natCast (F : FieldsTDEM nE nF k) (n : ℕ) :
    F.get_e (n : ℤ) = F.e n := by
  simp [FieldsTDEM.get_e]

/-- For a positive step the previous-step "b" accessor is a plain lookup. -/
theorem FieldsTDEM.get_b_sub_one (F : FieldsTDEM nE nF k) (n : ℕ) (h : n ≠ 0) :
    F.get_b ((n : ℤ) - 1) = F.b (n - 1) := by
  have hcast : ((n : ℤ) - 1) = ((n - 1 : ℕ) : ℤ) := by omega
  rw [hcast, FieldsTDEM.get_b_natCast]

/-- Before the simulation starts the "b" accessor returns zero. -/
theorem FieldsTDEM.get_b_neg_one (F : FieldsTDEM nE nF k) :
    F.get_b (-1) = 0 := by
  simp [FieldsTDEM.get_b]

/-- At index zero the "e" accessor is a plain lookup. -/
theorem FieldsTDEM.get_e_zero (F : FieldsTDEM nE nF k) :
    F.get_e (0 : ℤ) = F.e 0 := by
  simp [FieldsTDEM.get_e]

/-- At index zero the "b" accessor is a plain lookup. -/
theorem FieldsTDEM.get_b_zero (F : FieldsTDEM nE nF k) :
    F.get_b (0 : ℤ) = F.b 0 := by
  simp [FieldsTDEM.get_b]

/-- C2: for every time index `tInd` with step size `dt = getDt tInd`, `getA`
returns exactly the operator
`MfMui * edgeCurl * MeSigmaI * edgeCurl.T * MfMui + (1/dt) * MfMui` built
from the current mass matrices and the mesh curl: its action on any vector
is the right-to-left composition of those factors. -/
theorem getA_assembles_claimed_operator (P : Problem nE nF nP nQ)
    (M : MassMatrices nE nF) (tInd : ℕ) (x : Fin nF → ℚ) :
    (getA P M tInd).mulVec x =
      M.MfMui.mulVec (P.edgeCurl.mulVec (M.MeSigmaI.mulVec
        (P.edgeCurl.transpose.mulVec (M.MfMui.mulVec x)))) +
      (1 / P.getDt tInd) • M.MfMui.mulVec x := by
  simp [getA, Matrix.add_mulVec, Matrix.mulVec_mulVec, Matrix.smul_mulVec_assoc,
    Matrix.mul_assoc]

/-- C8: `getA tInd` is symmetric whenever the mass matrices `MfMui` and
`MeSigmaI` are symmetric. -/
theorem getA_symmetric (P : Problem nE nF nP nQ) (M : MassMatrices nE nF)
    (tInd : ℕ) (hMf : M.MfMui.transpose = M.MfMui)
    (hMe : M.MeSigmaI.transpose = M.MeSigmaI) :
    (getA P M tInd).transpose = getA P M tInd := by
  simp [getA, Matrix.transpose_add, Matrix.transpose_smul, Matrix.transpose_mul,
    Matrix.transpose_transpose, hMf, hMe, Matrix.mul_assoc]

/-- C6: `getRHS tInd F` is `(1/dt) • (MfMui * F.b (tInd - 1))` for positive
`tInd`, and at `tInd = 0` the previous-step "b" resolves to zero, so the
right-hand side is zero rather than a read of a nonexistent entry. -/
theorem getRHS_formula_and_boundary (P : Problem nE nF nP nQ)
    (M : MassMatrices nE nF) (F : FieldsTDEM nE nF k) (tInd : ℕ) :
    (0 < tInd → getRHS P M tInd F =
      (1 / P.getDt tInd) • (M.MfMui * F.b (tInd - 1))) ∧
    getRHS P M 0 F = 0 := by
  constructor
  · intro h
    rw [getRHS, FieldsTDEM.get_b_sub_one F tInd (by omega)]
  · have hneg : ((0 : ℕ) : ℤ) - 1 = -1 := by omega
    rw [getRHS, hneg, FieldsTDEM.get_b_neg_one, Matrix.mul_zero, smul_zero]

/-- C9: on the stateful problem object, calling `getA` or `getRHS` before
mass matrices have been built for the current model fails (returns no
matrix) instead of using stale data. -/
theorem getA_getRHS_require_mass_matrices (S : ProblemState nE nF nP nQ)
    (tInd : ℕ) (F : FieldsTDEM nE nF k) (h : S.massCache = none) :
    S.getA? tInd = none ∧ S.getRHS? tInd F = none := by
  constructor
  · rw [ProblemState.getA?, h]
    rfl
  · rw [ProblemState.getRHS?, h]
    rfl

/-- C10: the right-hand-side builder of `solveAh` takes an explicit branch
at `tInd = 0`, returning only the perturbation terms
`MfMui * (edgeCurl * (MeSigmaI * p.e 0)) + MfMui * p.b 0`; it never reads
the field history being built, so no previous-step "b" access occurs at the
first step. -/
theorem AhRHS_step0_reads_no_history (P : Problem nE nF nP nQ)
    (M : MassMatrices nE nF) (p u v : FieldsTDEM nE nF k) :
    AhRHS P M p 0 u =
      M.MfMui * (P.edgeCurl * (M.MeSigmaI * p.e 0)) + M.MfMui * p.b 0 ∧
    AhRHS P M p 0 u = AhRHS P M p 0 v := by
  constructor
  · simp [AhRHS, FieldsTDEM.get_e_zero, FieldsTDEM.get_b_zero, Matrix.mul_assoc]
  · rfl

/-- C4: the residual history `AhVec m u` has, at every index `i` of the time
mesh, "b" block `(1/dt_i) • u.b i + edgeCurl * u.e i - (1/dt_i) • u.b (i-1)`
with the `u.b (i-1)` term dropped at `i = 0`, and "e" block
`edgeCurl.T * (MfMui * u.b i) - MeSigma * u.e i`. -/
theorem AhVec_residual_formula (P : Problem nE nF nP nQ) (m : Fin nP → ℚ)
    (u : FieldsTDEM nE nF k) (i : ℕ) (_hi : i < P.nT) :
    (AhVec P m u).e i =
      P.edgeCurl.transpose * ((P.makeMassMatrices m).MfMui * u.b i) -
        (P.makeMassMatrices m).MeSigma * u.e i ∧
    (AhVec P m u).b 0 = (1 / P.getDt 0) • u.b 0 + P.edgeCurl * u.e 0 ∧
    (i ≠ 0 → (AhVec P m u).b i =
      (1 / P.getDt i) • u.b i + P.edgeCurl * u.e i -
        (1 / P.getDt i) • u.b (i - 1)) := by
  refine ⟨?_, ?_, ?_⟩
  · simp [AhVec, Matrix.mul_assoc]
  · simp [AhVec]
  · intro h
    simp [AhVec, h]

/-- C5: `G m v u` has, at every index `i` of the time mesh, "e" block equal
to `-u.e i` scaled elementwise per column by
`c = getEdgeMassDeriv.mulVec (transformDeriv m).mulVec v`, and a zero "b"
block. -/
theorem G_builds_perturbation (P : Problem nE nF nP nQ) (m v : Fin nP → ℚ)
    (u : FieldsTDEM nE nF k) (i : ℕ) (_hi : i < P.nT) :
    (∀ r j, (G P m v u).e i r j =
      -(u.e i r j) *
        (P.getEdgeMassDeriv.mulVec ((P.transformDeriv m).mulVec v)) r) ∧
    (G P m v u).b i = 0 := by
  constructor
  · intro r j
    simp [G, Matrix.mulVec_mulVec]
  · rfl

/-- C7: `G` is linear in its direction argument: the history for
`α • v1 + β • v2` is the componentwise combination `α`-times the history for
`v1` plus `β`-times the history for `v2`, at every time index. -/
theorem G_linear_in_direction (P : Problem nE nF nP nQ) (m : Fin nP → ℚ)
    (u : FieldsTDEM nE nF k) (v1 v2 : Fin nP → ℚ) (α β : ℚ) (i : ℕ) :
    (G P m (α • v1 + β • v2) u).e i =
      α • (G P m v1 u).e i + β • (G P m v2 u).e i ∧
    (G P m (α • v1 + β • v2) u).b i =
      α • (G P m v1 u).b i + β • (G P m v2 u).b i := by
  constructor
  · ext r j
    simp [G, Matrix.mulVec_add, Matrix.mulVec_smul]
    ring
  · simp [G]

/-- C3: any result `Y` of `solveAh m p` satisfies, at every step `tInd` of
the time mesh, the system `getA tInd * Y.b tInd = rhs` with
`rhs = MfMui * (edgeCurl * (MeSigmaI * p.e tInd)) + MfMui * p.b tInd` plus
the term `(1/dt) • (MfMui * Y.b (tInd-1))` only when `tInd > 0`, and the
post-solve field rule
`Y.e tInd = MeSigmaI * (edgeCurl.T * (MfMui * Y.b tInd)) - MeSigmaI * p.e tInd`;
the system matrix is `getA` unchanged from the forward solve. -/
theorem solveAh_step_equations (P : Problem nE nF nP nQ) (m : Fin nP → ℚ)
    (p Y : FieldsTDEM nE nF k) (hY : SolveAhRun P m p Y) :
    ∀ t, t < P.nT →
      getA P (P.makeMassMatrices m) t * Y.b t =
        (P.makeMassMatrices m).MfMui *
            (P.edgeCurl * ((P.makeMassMatrices m).MeSigmaI * p.e t)) +
          (P.makeMassMatrices m).MfMui * p.b t +
          (if t = 0 then 0 else
            (1 / P.getDt t) • ((P.makeMassMatrices m).MfMui * Y.b (t - 1))) ∧
      Y.e t = (P.makeMassMatrices m).MeSigmaI *
          (P.edgeCurl.transpose * ((P.makeMassMatrices m).MfMui * Y.b t)) -
        (P.makeMassMatrices m).MeSigmaI * p.e t := by
  intro t ht
  obtain ⟨hb, he⟩ := hY t ht
  constructor
  · rw [hb]
    by_cases h0 : t = 0
    · subst h0
      simp [AhRHS, FieldsTDEM.get_e_zero, FieldsTDEM.get_b_zero, Matrix.mul_assoc]
    · simp [AhRHS, h0, FieldsTDEM.get_e_natCast, FieldsTDEM.get_b_natCast,
        FieldsTDEM.get_b_sub_one Y t h0, Matrix.mul_assoc]
  · rw [he]
    simp [AhCalcFields, FieldsTDEM.get_e_natCast, Matrix.mul_assoc]

/-- When `MeSigmaI` is the exact algebraic inverse of `MeSigma` (the Mass-
Matrix Builder contract), it cancels `MeSigma` on any block. -/
theorem MeSigmaI_cancel {M : MassMatrices nE nF}
    (hM : M.MeSigmaI * M.MeSigma = 1) (X : Matrix (Fin nE) (Fin k) ℚ) :
    M.MeSigmaI * (M.MeSigma * X) = X := by
  rw [← Matrix.mul_assoc, hM, Matrix.one_mul]

/-- The field history `u` itself satisfies, at every step, the adjoint-solve
step system whose right-hand side is built from the residual `AhVec m u`:
this is the forward direction of the mutual-inverse relation between
`AhVec` and `solveAh`. -/
theorem getA_mul_eq_AhRHS_of_AhVec (P : Problem nE nF nP nQ) (m : Fin nP → ℚ)
    (u : FieldsTDEM nE nF k)
    (hM : (P.makeMassMatrices m).MeSigmaI * (P.makeMassMatrices m).MeSigma = 1)
    (t : ℕ) :
    getA P (P.makeMassMatrices m) t * u.b t =
      AhRHS P (P.makeMassMatrices m) (AhVec P m u) t u := by
  by_cases h0 : t = 0
  · subst h0
    simp only [getA, AhRHS, AhVec, FieldsTDEM.get_e_zero, FieldsTDEM.get_b_zero,
      Nat.cast_zero, eq_self_iff_true, if_true]
    simp only [Matrix.add_mul, Matrix.smul_mul, Matrix.mul_add, Matrix.mul_sub,
      Matrix.mul_smul, Matrix.mul_assoc, MeSigmaI_cancel hM]
    abel
  · simp only [getA, AhRHS, AhVec, FieldsTDEM.get_e_natCast,
      FieldsTDEM.get_b_natCast, FieldsTDEM.get_b_sub_one u t h0, if_neg h0]
    simp only [Matrix.add_mul, Matrix.smul_mul, Matrix.mul_add, Matrix.mul_sub,
      Matrix.mul_smul, Matrix.mul_assoc, MeSigmaI_cancel hM]
    abel

/-- C1: the round trip.  For every model `m` and field history `u` (shapes
enforced by the types), any history `Y` produced by
`solveAh m (AhVec m u)` coincides with `u` on every index of the time mesh,
provided the builder contract `MeSigmaI * MeSigma = 1` holds and each step
matrix `getA t` is invertible (so that the per-step solves are exact):
`AhVec` and `solveAh` are mutual inverses. -/
theorem solveAh_AhVec_roundtrip (P : Problem nE nF nP nQ) (m : Fin nP → ℚ)
    (u Y : FieldsTDEM nE nF k)
    (hM : (P.makeMassMatrices m).MeSigmaI * (P.makeMassMatrices m).MeSigma = 1)
    (hA : ∀ t, t < P.nT → ∃ B, B * getA P (P.makeMassMatrices m) t = 1)
    (hY : SolveAhRun P m (AhVec P m u) Y) :
    ∀ t, t < P.nT → Y.b t = u.b t ∧ Y.e t = u.e t := by
  have hb : ∀ t, t < P.nT → Y.b t = u.b t := by
    intro t
    induction t using Nat.strong_induction_on with
    | _ t ih =>
      intro ht
      obtain ⟨B, hB⟩ := hA t ht
      have h1 : getA P (P.makeMassMatrices m) t * Y.b t =
          AhRHS P (P.makeMassMatrices m) (AhVec P m u) t Y := (hY t ht).1
      have h2 := getA_mul_eq_AhRHS_of_AhVec P m u hM t
      have hr : AhRHS P (P.makeMassMatrices m) (AhVec P m u) t Y =
          AhRHS P (P.makeMassMatrices m) (AhVec P m u) t u := by
        by_cases h0 : t = 0
        · subst h0
          simp [AhRHS]
        · have hprev : Y.b (t - 1) = u.b (t - 1) := ih (t - 1) (by omega) (by omega)
          simp [AhRHS, h0, FieldsTDEM.get_b_sub_one Y t h0,
            FieldsTDEM.get_b_sub_one u t h0, hprev]
      have hAb : getA P (P.makeMassMatrices m) t * Y.b t =
          getA P (P.makeMassMatrices m) t * u.b t := by
        rw [h1, hr, ← h2]
      have hcongr := congrArg (fun X => B * X) hAb
      simp only [← Matrix.mul_assoc, hB, Matrix.one_mul] at hcongr
      exact hcongr
  intro t ht
  refine ⟨hb t ht, ?_⟩
  have he : Y.e t = (AhCalcFields P (P.makeMassMatrices m) (AhVec P m u)
      (Y.b t) t).2 := (hY t ht).2
  rw [he, hb t ht]
  simp [AhCalcFields, AhVec, FieldsTDEM.get_e_natCast, Matrix.mul_sub,
    Matrix.mul_assoc, MeSigmaI_cancel hM, sub_sub_cancel]

/-! Concrete instances used by the witnesses below: a one-edge, one-face,
one-step problem with a zero curl, identity mass matrices and unit step. -/

/-- A concrete one-edge, one-face, one-step problem. -/
def P1 : Problem 1 1 1 1 where
  edgeCurl := 0
  getEdgeMassDeriv := 1
  transformDeriv := fun _ => 1
  makeMassMatrices := fun _ => ⟨1, 1, 1⟩
  getDt := fun _ => 1
  nT := 1

/-- A concrete model vector. -/
def m1 : Fin 1 → ℚ := fun _ => 1

/-- Concrete mass matrices, all identity. -/
def M1 : MassMatrices 1 1 := ⟨1, 1, 1⟩

/-- A concrete field history: zero "e" blocks, identity "b" blocks. -/
def u1 : FieldsTDEM 1 1 1 := ⟨fun _ => 0, fun _ => 1⟩

/-- A concrete all-zero field history. -/
def Fz : FieldsTDEM 1 1 1 := ⟨fun _ => 0, fun _ => 0⟩

/-- A concrete problem state whose mass-matrix cache is empty. -/
def S1 : ProblemState 1 1 1 1 := ⟨P1, none⟩

/-- Witness for C4 at the concrete problem `P1`, history `u1`, index 0. -/
theorem AhVec_residual_formula_witness :
    0 < P1.nT ∧
    ((AhVec P1 m1 u1).e 0 =
      P1.edgeCurl.transpose * ((P1.makeMassMatrices m1).MfMui * u1.b 0) -
        (P1.makeMassMatrices m1).MeSigma * u1.e 0 ∧
    (AhVec P1 m1 u1).b 0 = (1 / P1.getDt 0) • u1.b 0 + P1.edgeCurl * u1.e 0 ∧
    ((0 : ℕ) ≠ 0 → (AhVec P1 m1 u1).b 0 =
      (1 / P1.getDt 0) • u1.b 0 + P1.edgeCurl * u1.e 0 -
        (1 / P1.getDt 0) • u1.b (0 - 1))) :=
  ⟨by decide, AhVec_residual_formula P1 m1 u1 0 (by decide)⟩

/-- Witness for C5 at the concrete problem `P1`, direction `m1`, history
`u1`, index 0. -/
theorem G_builds_perturbation_witness :
    0 < P1.nT ∧
    ((∀ r j, (G P1 m1 m1 u1).e 0 r j =
      -(u1.e 0 r j) *
        (P1.getEdgeMassDeriv.mulVec ((P1.transformDeriv m1).mulVec m1)) r) ∧
    (G P1 m1 m1 u1).b 0 = 0) :=
  ⟨by decide, G_builds_perturbation P1 m1 m1 u1 0 (by decide)⟩

/-- Witness for C6 at the concrete problem `P1`, mass matrices `M1`,
history `u1`, indices 1 and 0. -/
theorem getRHS_formula_and_boundary_witness :
    (0 : ℕ) < 1 ∧
    getRHS P1 M1 1 u1 = (1 / P1.getDt 1) • (M1.MfMui * u1.b 0) ∧
    getRHS P1 M1 0 u1 = 0 :=
  ⟨by decide, (getRHS_formula_and_boundary P1 M1 u1 1).1 (by decide),
    (getRHS_formula_and_boundary P1 M1 u1 1).2⟩

/-- Witness for C8 at the concrete problem `P1` with identity (hence
symmetric) mass matrices. -/
theorem getA_symmetric_witness :
    M1.MfMui.transpose = M1.MfMui ∧ M1.MeSigmaI.transpose = M1.MeSigmaI ∧
    (getA P1 M1 0).transpose = getA P1 M1 0 :=
  ⟨Matrix.transpose_one, Matrix.transpose_one,
    getA_symmetric P1 M1 0 Matrix.transpose_one Matrix.transpose_one⟩

/-- Witness for C9 at the concrete problem state `S1` with an empty
mass-matrix cache. -/
theorem getA_getRHS_require_mass_matrices_witness :
    S1.massCache = none ∧ (S1.getA? 0 = none ∧ S1.getRHS? 0 u1 = none) :=
  ⟨rfl, getA_getRHS_require_mass_matrices S1 0 u1 rfl⟩

/-- Witness for C3: the all-zero history is a `solveAh` run for the zero
perturbation on `P1`, and the step equations hold for it. -/
theorem solveAh_step_equations_witness :
    SolveAhRun P1 m1 Fz Fz ∧
    (∀ t, t < P1.nT →
      getA P1 (P1.makeMassMatrices m1) t * Fz.b t =
        (P1.makeMassMatrices m1).MfMui *
            (P1.edgeCurl * ((P1.makeMassMatrices m1).MeSigmaI * Fz.e t)) +
          (P1.makeMassMatrices m1).MfMui * Fz.b t +
          (if t = 0 then 0 else
            (1 / P1.getDt t) • ((P1.makeMassMatrices m1).MfMui * Fz.b (t - 1))) ∧
      Fz.e t = (P1.makeMassMatrices m1).MeSigmaI *
          (P1.edgeCurl.transpose * ((P1.makeMassMatrices m1).MfMui * Fz.b t)) -
        (P1.makeMassMatrices m1).MeSigmaI * Fz.e t) := by
  have hrun : SolveAhRun P1 m1 Fz Fz := by
    intro t ht
    constructor
    · simp [getA, AhRHS, P1, Fz, FieldsTDEM.get_e, FieldsTDEM.get_b]
    · simp [AhCalcFields, P1, Fz, FieldsTDEM.get_e]
  exact ⟨hrun, solveAh_step_equations P1 m1 Fz Fz hrun⟩

/-- Witness for C1: on `P1` the builder contract holds, every step matrix
is invertible, `u1` itself is a `solveAh` run on the residual
`AhVec m1 u1`, and the round trip fixes `u1`. -/
theorem solveAh_AhVec_roundtrip_witness :
    ((P1.makeMassMatrices m1).MeSigmaI * (P1.makeMassMatrices m1).MeSigma = 1) ∧
    (∀ t, t < P1.nT → ∃ B, B * getA P1 (P1.makeMassMatrices m1) t = 1) ∧
    SolveAhRun P1 m1 (AhVec P1 m1 u1) u1 ∧
    (∀ t, t < P1.nT → u1.b t = u1.b t ∧ u1.e t = u1.e t) := by
  have hM : (P1.makeMassMatrices m1).MeSigmaI * (P1.makeMassMatrices m1).MeSigma = 1 :=
    Matrix.mul_one 1
  have hA : ∀ t, t < P1.nT → ∃ B, B * getA P1 (P1.makeMassMatrices m1) t = 1 := by
    intro t ht
    refine ⟨1, ?_⟩
    simp [getA, P1]
  have hrun : SolveAhRun P1 m1 (AhVec P1 m1 u1) u1 := by
    intro t ht
    have ht1 : t < 1 := by simpa [P1] using ht
    have ht0 : t = 0 := by omega
    subst ht0
    constructor
    · exact getA_mul_eq_AhRHS_of_AhVec P1 m1 u1 hM 0
    · simp [AhCalcFields, AhVec, P1, u1, FieldsTDEM.get_e]
  exact ⟨hM, hA, hrun, solveAh_AhVec_roundtrip P1 m1 u1 u1 hM hA hrun⟩

end SimpegEM
